import Mathlib

/-!
The path expression parser and the Get dispatcher of gnoi_client/healthz.

A shallow embedding of `gnoi_client/healthz/healthz.go`.

* Go strings are modelled as `List Char` (`Str`).  All delimiters the code looks at
  (`/`, `[`, `=`, `]`, the quotes, the newline) are ASCII, so the rune view and the
  byte view of a valid UTF-8 string agree on everything modelled here.
* `map[string]string` is modelled as an association list; the nil map of a plain
  element is the empty list.
* `regexp.MustCompile("(.*)\\[(.*)=(.*)\\]")` is modelled by a backtracking matcher
  with Go's leftmost-first preference: the leftmost start wins, and every `.*` is greedy
  and never crosses a newline.
-/

namespace Healthz

/-- Go `string`, as a list of characters. -/
abbrev Str := List Char

/-- `types.PathElem`: a name and its key map. -/
structure PathElem where
  Name : Str
  Key : List (Str × Str)
deriving DecidableEq, Repr

/-- `types.Path`: the ordered elements. -/
structure Path where
  Elem : List PathElem
deriving DecidableEq, Repr

/-! ## Library functions used by `parsePath` -/

/-- `strings.TrimPrefix(s, "/")`: drops one leading `/` when there is one. -/
def TrimPrefix : Str → Str
  | '/' :: rest => rest
  | s => s

/-- `strings.Split(s, "/")`: the pieces between the separators; never the empty list. -/
def Split : Str → List Str
  | [] => [[]]
  | c :: cs =>
    if c = '/' then [] :: Split cs
    else match Split cs with
      | [] => [[c]]
      | p :: ps => (c :: p) :: ps

/-- The cutset of `strings.Trim(m[3], "\"'")`. -/
def isQuote (c : Char) : Bool := c = '"' || c = '\''

/-- `strings.Trim(s, "\"'")`: all leading and all trailing cutset characters removed. -/
def Trim (s : Str) : Str :=
  ((s.dropWhile isQuote).reverse.dropWhile isQuote).reverse

/-! ## The regular expression `(.*)\[(.*)=(.*)\]` -/

/-- A capturing `(.*)` followed by the rest of the pattern `k`: greedy, so the longest
run of non-newline characters is tried first and given back one character at a time. -/
def star {β : Type} (k : Str → Option β) : Str → Option (Str × β)
  | [] => (k []).map (fun r => ([], r))
  | c :: cs =>
    if c = '\n' then (k (c :: cs)).map (fun r => ([], r))
    else match star k cs with
      | some (g, r) => some (c :: g, r)
      | none => (k (c :: cs)).map (fun r => ([], r))

/-- A literal character followed by the rest of the pattern `k`. -/
def lit {β : Type} (ch : Char) (k : Str → Option β) : Str → Option β
  | [] => none
  | c :: cs => if c = ch then k cs else none

/-- End of the pattern: the match is not anchored, whatever follows is left over. -/
def done : Str → Option Unit := fun _ => some ()

/-- The tail `\]` of the pattern. -/
def reClose : Str → Option Unit := lit ']' done

/-- The tail `=(.*)\]` of the pattern. -/
def reEq : Str → Option (Str × Unit) := lit '=' (star reClose)

/-- The tail `\[(.*)=(.*)\]` of the pattern. -/
def reOpen : Str → Option (Str × Str × Unit) := lit '[' (star reEq)

/-- The pattern `(.*)\[(.*)=(.*)\]` tried at the start of the given text. -/
def keyReAt (s : Str) : Option (Str × Str × Str) :=
  (star reOpen s).map (fun r => (r.1, r.2.1, r.2.2.1))

/-- `keyRe.FindStringSubmatch(p)`: the groups `m[1]`, `m[2]`, `m[3]` of the leftmost
match, `none` when the pattern matches nowhere. -/
def FindStringSubmatch : Str → Option (Str × Str × Str)
  | [] => keyReAt []
  | c :: cs =>
    match keyReAt (c :: cs) with
    | some m => some m
    | none => FindStringSubmatch cs

/-- `keyRe.MatchString(p)`. -/
def MatchString (p : Str) : Bool := (FindStringSubmatch p).isSome

/-! ## `parsePath` -/

/-- The body of the `for _, p := range parts` loop, threading `elems`. -/
def parseLoop (elems : List PathElem) : List Str → List PathElem
  | [] => elems
  | p :: rest =>
    if p = [] then parseLoop elems rest
    else if MatchString p then
      match FindStringSubmatch p with
      | some m => parseLoop (elems ++ [⟨m.1, [(m.2.1, Trim m.2.2)]⟩]) rest
      | none => parseLoop elems rest
    else parseLoop (elems ++ [⟨p, []⟩]) rest

/-- The `parts` of `parsePath`: `strings.Split(strings.TrimPrefix(pathStr, "/"), "/")`. -/
def parts (pathStr : Str) : List Str := Split (TrimPrefix pathStr)

/-- `parsePath`. -/
def parsePath (pathStr : Str) : Path := ⟨parseLoop [] (parts pathStr)⟩

/-- `pathToString`; `none` is the nil pointer. -/
def pathToString : Option Path → Str
  | none => "<nil>".toList
  | some p => p.Elem.foldl (fun s e => s ++ '/' :: e.Name) []

/-- What one iteration of the loop of `parsePath` appends for the part `p`. -/
def elemOf (p : Str) : List PathElem :=
  if p = [] then []
  else match FindStringSubmatch p with
    | some m => [⟨m.1, [(m.2.1, Trim m.2.2)]⟩]
    | none => [⟨p, []⟩]

/-- The elements contributed by a list of parts, in order. -/
def elemsOf : List Str → List PathElem
  | [] => []
  | p :: ps => elemOf p ++ elemsOf ps

/-- The text `pathToString` builds for a list of elements. -/
def renderElems : List PathElem → Str
  | [] => []
  | e :: es => '/' :: (e.Name ++ renderElems es)

/-- A text that holds a `[`, later a `=` and later a `]`. -/
def hasBracketShape (p : Str) : Prop :=
  ∃ a b c d : Str, p = a ++ '[' :: (b ++ '=' :: (c ++ ']' :: d))

/-- A character that is none of `/`, `[`, `]`, `=`, a quote or a newline. -/
def plainChar (c : Char) : Bool :=
  c != '/' && c != '[' && c != ']' && c != '=' && !isQuote c && c != '\n'

/-- A text made of plain characters only. -/
def plainText (t : Str) : Bool := t.all plainChar

/-- A text that neither starts nor ends with a quote character. -/
def unquoted (t : Str) : Bool :=
  (match t.head? with
    | some c => !isQuote c
    | none => true) &&
  (match t.getLast? with
    | some c => !isQuote c
    | none => true)

/-! ## The dispatchers `Get` and `Check` -/

/-- `pb.ComponentStatus`; the scalar fields are kept as the text `%v` prints. -/
structure ComponentStatus where
  Path : Option Path
  Status : Str
  Acknowledged : Str
  Id : Str
  Artifacts : List Str
  Created : Option Str
  Expires : Option Str
deriving DecidableEq, Repr

/-- `pb.GetResponse`. -/
structure GetResponse where
  Component : Option ComponentStatus
deriving DecidableEq, Repr

/-- `pb.CheckResponse`; `Status` as the text `%+v` prints. -/
structure CheckResponse where
  Status : Str
deriving DecidableEq, Repr

/-- How a dispatcher ends. -/
inductive Outcome where
  /-- Normal return, with the lines printed from the response. -/
  | returned (lines : List Str)
  /-- An explicit `panic(fmt.Sprintf(...))` with its message. -/
  | panicked (msg : Str)
  /-- The runtime error of reading a field through a nil pointer. -/
  | nilDereference
deriving DecidableEq, Repr

/-- One run of a dispatcher: the path of the request handed to the remote call (when the
call was reached), whether a field of `resp` was read, and how the run ended. -/
structure Run where
  request : Option Path
  readsResp : Bool
  outcome : Outcome
deriving DecidableEq, Repr

/-- `printComponentStatus`; `none` is the nil pointer, whose `cs.Path` cannot be read. -/
def printComponentStatus : Option ComponentStatus → Outcome
  | none => .nilDereference
  | some cs =>
    .returned
      (["Healthz Status for: ".toList ++ pathToString cs.Path,
        "Status: ".toList ++ cs.Status,
        "Acknowledged: ".toList ++ cs.Acknowledged,
        "ID: ".toList ++ cs.Id,
        "Artifacts:".toList]
        ++ cs.Artifacts.map (fun a => "  - Artifact ID: ".toList ++ a)
        ++ (match cs.Created with
            | some t => ["Created: ".toList ++ t]
            | none => [])
        ++ (match cs.Expires with
            | some t => ["Expires: ".toList ++ t]
            | none => []))

/-- `Get`.  `args` is the result of `json.Unmarshal` (the decoded `path`, or the decode
error); `clientGet` is the remote call, returning the pair `(resp, err)`. -/
def Get (args : Except Str Str) (clientGet : Path → Option GetResponse × Option Str) : Run :=
  match args with
  | .error e => ⟨none, false, .panicked ("Invalid JSON input: ".toList ++ e)⟩
  | .ok path =>
    let gnmiPath := parsePath path
    let req := gnmiPath
    match clientGet req with
    | (resp, _err) =>
      -- `if err != nil { fmt.Sprintf(...) }` builds a string and drops it
      match resp with
      | none => ⟨some req, true, .nilDereference⟩
      | some r => ⟨some req, true, printComponentStatus r.Component⟩

/-- `Check`, with the same conventions as `Get`. -/
def Check (args : Except Str (Str × Str))
    (clientCheck : Path → Str → Option CheckResponse × Option Str) : Run :=
  match args with
  | .error e => ⟨none, false, .panicked ("Invalid JSON input: ".toList ++ e)⟩
  | .ok (path, eventID) =>
    let req := parsePath path
    match clientCheck req eventID with
    | (resp, err) =>
      match err with
      | some e => ⟨some req, false, .panicked ("Healthz.Check RPC failed: ".toList ++ e)⟩
      | none =>
        match resp with
        | none => ⟨some req, true, .nilDereference⟩
        | some r => ⟨some req, true, .returned ["Check response: ".toList ++ r.Status]⟩

/-! ## Facts about the library functions -/

theorem star_nil {β : Type} (k : Str → Option β) :
    star k [] = (k []).map (fun r => ([], r)) := rfl

theorem star_cons_some {β : Type} (k : Str → Option β) (c : Char) (cs g : Str) (r : β)
    (hc : c ≠ '\n') (h : star k cs = some (g, r)) :
    star k (c :: cs) = some (c :: g, r) := by
  simp [star, hc, h]

theorem star_cons_none {β : Type} (k : Str → Option β) (c : Char) (cs : Str)
    (h : star k cs = none) :
    star k (c :: cs) = (k (c :: cs)).map (fun r => ([], r)) := by
  by_cases hc : c = '\n' <;> simp [star, hc, h]

/-- A greedy group swallows a newline-free run in front of a text on which it matches. -/
theorem star_append {β : Type} (k : Str → Option β) (g rest g0 : Str) (r : β)
    (hg : '\n' ∉ g) (h : star k rest = some (g0, r)) :
    star k (g ++ rest) = some (g ++ g0, r) := by
  induction g with
  | nil => simpa using h
  | cons c g ih =>
    simp only [List.mem_cons, not_or] at hg
    exact star_cons_some k c (g ++ rest) (g ++ g0) r (fun e => hg.1 e.symm) (ih hg.2)

theorem star_cons_newline {β : Type} (k : Str → Option β) (cs : Str) :
    star k ('\n' :: cs) = (k ('\n' :: cs)).map (fun r => ([], r)) := by
  simp [star]

theorem map_pair_eq_some {β : Type} (o : Option β) (g : Str) (r : β)
    (h : o.map (fun r =>(([] : Str), r)) = some (g, r)) : g = [] ∧ o = some r := by
  cases o with
  | none => simp at h
  | some r0 =>
    simp at h
    exact ⟨h.1, by rw [h.2]⟩

/-- What a successful greedy group returns: a newline-free prefix and a match of the rest. -/
theorem star_sound {β : Type} (k : Str → Option β) :
    ∀ (xs g : Str) (r : β), star k xs = some (g, r) →
      ∃ rest, xs = g ++ rest ∧ '\n' ∉ g ∧ k rest = some r := by
  intro xs
  induction xs with
  | nil =>
    intro g r h
    rw [star_nil] at h
    obtain ⟨rfl, hk⟩ := map_pair_eq_some _ _ _ h
    exact ⟨[], rfl, by simp, hk⟩
  | cons c cs ih =>
    intro g r h
    by_cases hc : c = '\n'
    · subst hc
      rw [star_cons_newline] at h
      obtain ⟨rfl, hk⟩ := map_pair_eq_some _ _ _ h
      exact ⟨'\n' :: cs, rfl, by simp, hk⟩
    · cases hs : star k cs with
      | some gr =>
        obtain ⟨g0, r0⟩ := gr
        rw [star_cons_some k c cs g0 r0 hc hs] at h
        simp only [Option.some.injEq, Prod.mk.injEq] at h
        obtain ⟨rfl, rfl⟩ := h
        obtain ⟨rest, h1, h2, h3⟩ := ih g0 r0 hs
        refine ⟨rest, by rw [h1]; rfl, ?_, h3⟩
        simp only [List.mem_cons, not_or]
        exact ⟨fun e => hc e.symm, h2⟩
      | none =>
        rw [star_cons_none k c cs hs] at h
        obtain ⟨rfl, hk⟩ := map_pair_eq_some _ _ _ h
        exact ⟨c :: cs, rfl, by simp, hk⟩

/-- A greedy group fails only when the rest of the pattern fails after every newline-free
prefix. -/
theorem star_none_elim {β : Type} (k : Str → Option β) :
    ∀ (xs : Str), star k xs = none →
      ∀ (g rest : Str), xs = g ++ rest → '\n' ∉ g → k rest = none := by
  intro xs
  induction xs with
  | nil =>
    intro h g rest hx _
    have hg : g = [] ∧ rest = [] := by simpa using hx.symm
    rw [star_nil] at h
    rw [hg.2]
    simpa using h
  | cons c cs ih =>
    intro h g rest hx hg
    cases g with
    | nil =>
      simp only [List.nil_append] at hx
      subst hx
      by_cases hc : c = '\n'
      · subst hc
        rw [star_cons_newline] at h
        simpa using h
      · cases hs : star k cs with
        | some gr =>
          obtain ⟨g0, r0⟩ := gr
          rw [star_cons_some k c cs g0 r0 hc hs] at h
          simp at h
        | none =>
          rw [star_cons_none k c cs hs] at h
          simpa using h
    | cons d g =>
      simp only [List.cons_append, List.cons.injEq] at hx
      obtain ⟨rfl, hx⟩ := hx
      simp only [List.mem_cons, not_or] at hg
      have hc : c ≠ '\n' := fun e => hg.1 e.symm
      cases hs : star k cs with
      | some gr =>
        obtain ⟨g0, r0⟩ := gr
        rw [star_cons_some k c cs g0 r0 hc hs] at h
        simp at h
      | none => exact ih hs g rest hx hg.2

/-- A greedy group keeps the longest newline-free prefix after which the rest of the
pattern matches. -/
theorem star_max {β : Type} (k : Str → Option β) :
    ∀ (xs g : Str) (r : β), star k xs = some (g, r) →
      ∀ (g1 rest1 : Str), xs = g1 ++ rest1 → '\n' ∉ g1 → g.length < g1.length →
        k rest1 = none := by
  intro xs
  induction xs with
  | nil =>
    intro g r _ g1 rest1 hx _ hlen
    have hg : g1 = [] ∧ rest1 = [] := by simpa using hx.symm
    rw [hg.1] at hlen
    simp at hlen
  | cons c cs ih =>
    intro g r h g1 rest1 hx hg1 hlen
    cases g1 with
    | nil => simp at hlen
    | cons d g1 =>
      simp only [List.cons_append, List.cons.injEq] at hx
      obtain ⟨rfl, hx⟩ := hx
      simp only [List.mem_cons, not_or] at hg1
      have hc : c ≠ '\n' := fun e => hg1.1 e.symm
      cases hs : star k cs with
      | some gr =>
        obtain ⟨g0, r0⟩ := gr
        rw [star_cons_some k c cs g0 r0 hc hs] at h
        simp only [Option.some.injEq, Prod.mk.injEq] at h
        obtain ⟨rfl, rfl⟩ := h
        exact ih g0 r0 hs g1 rest1 hx hg1.2 (by simpa using hlen)
      | none => exact star_none_elim k cs hs g1 rest1 hx hg1.2

/-- A greedy group fails when the rest of the pattern fails on every suffix. -/
theorem star_eq_none_of {β : Type} (k : Str → Option β) :
    ∀ (xs : Str), (∀ (g rest : Str), xs = g ++ rest → k rest = none) → star k xs = none := by
  intro xs
  induction xs with
  | nil =>
    intro h
    rw [star_nil, h [] [] rfl]; rfl
  | cons c cs ih =>
    intro h
    have hs : star k cs = none := ih (fun g rest hx => h (c :: g) rest (by rw [hx]; rfl))
    rw [star_cons_none k c cs hs, h [] (c :: cs) rfl]; rfl

theorem lit_cons_eq {β : Type} (ch : Char) (k : Str → Option β) (cs : Str) :
    lit ch k (ch :: cs) = k cs := by
  simp [lit]

theorem lit_cons_ne {β : Type} (ch c : Char) (k : Str → Option β) (cs : Str) (h : c ≠ ch) :
    lit ch k (c :: cs) = none := by
  simp [lit, h]

theorem lit_sound {β : Type} (ch : Char) (k : Str → Option β) (xs : Str) (r : β)
    (h : lit ch k xs = some r) : ∃ rest, xs = ch :: rest ∧ k rest = some r := by
  cases xs with
  | nil => simp [lit] at h
  | cons c cs =>
    by_cases hc : c = ch
    · subst hc
      rw [lit_cons_eq] at h
      exact ⟨cs, rfl, h⟩
    · rw [lit_cons_ne ch c k cs hc] at h
      simp at h

/-- A literal after a greedy group cannot match when the rest of the pattern fails on
every suffix of the text. -/
theorem star_lit_fail {β : Type} (ch : Char) (k : Str → Option β) (t : Str)
    (h : ∀ (g rest : Str), t = g ++ rest → k rest = none) : star (lit ch k) t = none := by
  apply star_eq_none_of
  intro g rest hx
  cases rest with
  | nil => rfl
  | cons c r =>
    by_cases hc : c = ch
    · subst hc
      rw [lit_cons_eq]
      exact h (g ++ [c]) r (by rw [hx]; simp)
    · exact lit_cons_ne ch c k r hc

/-! ## Facts about the pattern `(.*)\[(.*)=(.*)\]` -/

theorem star_reClose_none (t : Str) (h : ']' ∉ t) : star reClose t = none := by
  apply star_eq_none_of
  intro g rest hx
  cases rest with
  | nil => rfl
  | cons c r =>
    apply lit_cons_ne
    rintro rfl
    exact h (by rw [hx]; simp)

theorem star_reEq_none (t : Str) (h : ']' ∉ t) : star reEq t = none := by
  apply star_lit_fail
  intro g rest hx
  apply star_reClose_none
  intro hm
  exact h (by rw [hx]; simp [hm])

theorem star_reOpen_none (t : Str) (h : ']' ∉ t) : star reOpen t = none := by
  apply star_lit_fail
  intro g rest hx
  apply star_reEq_none
  intro hm
  exact h (by rw [hx]; simp [hm])

theorem star_reEq_value_none (v post : Str) (hv : '=' ∉ v) (hp : ']' ∉ post) :
    star reEq (v ++ ']' :: post) = none := by
  induction v with
  | nil =>
    rw [List.nil_append, star_cons_none _ _ _ (star_reEq_none post hp)]
    simp [reEq, lit]
  | cons c v ih =>
    simp only [List.mem_cons, not_or] at hv
    rw [List.cons_append, star_cons_none _ _ _ (ih hv.2)]
    have hc : c ≠ '=' := fun e => hv.1 e.symm
    simp [reEq, lit, hc]

theorem star_reOpen_value_none (v post : Str) (hv : '=' ∉ v) (hp : ']' ∉ post) :
    star reOpen (v ++ ']' :: post) = none := by
  induction v with
  | nil =>
    rw [List.nil_append, star_cons_none _ _ _ (star_reOpen_none post hp)]
    simp [reOpen, lit]
  | cons c v ih =>
    have hv2 : '=' ∉ v := fun hm => hv (List.mem_cons_of_mem _ hm)
    rw [List.cons_append, star_cons_none _ _ _ (ih hv2)]
    by_cases hc : c = '['
    · subst hc
      rw [reOpen, lit_cons_eq, star_reEq_value_none v post hv2 hp]; rfl
    · rw [reOpen, lit_cons_ne _ _ _ _ hc]; rfl

theorem star_reOpen_key_none (k v post : Str) (hk : '[' ∉ k) (hv : '=' ∉ v)
    (hp : ']' ∉ post) : star reOpen (k ++ '=' :: (v ++ ']' :: post)) = none := by
  induction k with
  | nil =>
    rw [List.nil_append, star_cons_none _ _ _ (star_reOpen_value_none v post hv hp)]
    simp [reOpen, lit]
  | cons c k ih =>
    simp only [List.mem_cons, not_or] at hk
    have hc : c ≠ '[' := fun e => hk.1 e.symm
    rw [List.cons_append, star_cons_none _ _ _ (ih hk.2), reOpen,
      lit_cons_ne _ _ _ _ hc]; rfl

theorem star_reClose_value (v post : Str) (hv : '\n' ∉ v) (hp : ']' ∉ post) :
    star reClose (v ++ ']' :: post) = some (v, ()) := by
  have h0 : star reClose (']' :: post) = some ([], ()) := by
    rw [star_cons_none _ _ _ (star_reClose_none post hp)]
    simp [reClose, lit, done]
  simpa using star_append reClose v (']' :: post) [] () hv h0

theorem star_reEq_key (k v post : Str) (hk : '\n' ∉ k) (hv : '\n' ∉ v) (hv2 : '=' ∉ v)
    (hp : ']' ∉ post) :
    star reEq (k ++ '=' :: (v ++ ']' :: post)) = some (k, v, ()) := by
  have h0 : star reEq ('=' :: (v ++ ']' :: post)) = some ([], v, ()) := by
    rw [star_cons_none _ _ _ (star_reEq_value_none v post hv2 hp),
      reEq, lit_cons_eq, star_reClose_value v post hv hp]; rfl
  simpa using star_append reEq k ('=' :: (v ++ ']' :: post)) [] (v, ()) hk h0

theorem star_reOpen_name (n k v post : Str) (hn : '\n' ∉ n) (hk : '\n' ∉ k)
    (hv : '\n' ∉ v) (hk2 : '[' ∉ k) (hv2 : '=' ∉ v) (hp : ']' ∉ post) :
    star reOpen (n ++ '[' :: (k ++ '=' :: (v ++ ']' :: post))) = some (n, k, v, ()) := by
  have h0 : star reOpen ('[' :: (k ++ '=' :: (v ++ ']' :: post))) = some ([], k, v, ()) := by
    rw [star_cons_none _ _ _ (star_reOpen_key_none k v post hk2 hv2 hp),
      reOpen, lit_cons_eq, star_reEq_key k v post hk hv hv2 hp]; rfl
  simpa using star_append reOpen n ('[' :: (k ++ '=' :: (v ++ ']' :: post))) [] (k, v, ()) hn h0

theorem FindStringSubmatch_of_keyReAt (s : Str) (m : Str × Str × Str)
    (h : keyReAt s = some m) : FindStringSubmatch s = some m := by
  cases s with
  | nil => simpa [FindStringSubmatch] using h
  | cons c cs => simp [FindStringSubmatch, h]

/-- The groups found in a text of the shape `n[k=v]post`, when the name, key and value
are newline-free, the key has no `[`, the value no `=` and the trailing text no `]`. -/
theorem FindStringSubmatch_decomp (n k v post : Str) (hn : '\n' ∉ n) (hk : '\n' ∉ k)
    (hv : '\n' ∉ v) (hk2 : '[' ∉ k) (hv2 : '=' ∉ v) (hp : ']' ∉ post) :
    FindStringSubmatch (n ++ '[' :: (k ++ '=' :: (v ++ ']' :: post))) = some (n, k, v) := by
  apply FindStringSubmatch_of_keyReAt
  rw [keyReAt, star_reOpen_name n k v post hn hk hv hk2 hv2 hp]; rfl

/-- Where the groups of a match at the start of a text sit, with the greedy key. -/
theorem keyReAt_sound (s n k v : Str) (h : keyReAt s = some (n, k, v)) :
    ∃ post, s = n ++ '[' :: (k ++ '=' :: (v ++ ']' :: post)) ∧
      '\n' ∉ n ∧ '\n' ∉ k ∧ '\n' ∉ v ∧ '[' ∉ k := by
  unfold keyReAt at h
  cases h1 : star reOpen s with
  | none => simp [h1] at h
  | some r =>
    obtain ⟨n0, k0, v0, u⟩ := r
    simp only [h1, Option.map_some', Option.some.injEq, Prod.mk.injEq] at h
    obtain ⟨rfl, rfl, rfl⟩ := h
    obtain ⟨rest1, e1, hn, q1⟩ := star_sound reOpen s n0 (k0, v0, u) h1
    obtain ⟨rest2, e2, q2⟩ := lit_sound '[' (star reEq) rest1 _ q1
    obtain ⟨rest3, e3, hk, q3⟩ := star_sound reEq rest2 k0 (v0, u) q2
    obtain ⟨rest4, e4, q4⟩ := lit_sound '=' (star reClose) rest3 _ q3
    obtain ⟨rest5, e5, hv, q5⟩ := star_sound reClose rest4 v0 u q4
    obtain ⟨post, e6, _⟩ := lit_sound ']' done rest5 _ q5
    refine ⟨post, by rw [e1, e2, e3, e4, e5, e6], hn, hk, hv, ?_⟩
    intro hm
    obtain ⟨k1, k2, ek⟩ := List.append_of_mem hm
    have hk2 : '\n' ∉ k2 := fun hm2 => hk (by rw [ek]; simp [hm2])
    have hk1 : '\n' ∉ k1 := fun hm1 => hk (by rw [ek]; simp [hm1])
    have hsplit : s = (n0 ++ '[' :: k1) ++ ('[' :: (k2 ++ rest3)) := by
      rw [e1, e2, e3, ek]; simp
    have hnl : '\n' ∉ n0 ++ '[' :: k1 := by
      simp only [List.mem_append, List.mem_cons, not_or]
      exact ⟨hn, by decide, hk1⟩
    have hmax := star_max reOpen s n0 (k0, v0, u) h1 _ _ hsplit hnl (by simp)
    rw [reOpen, lit_cons_eq] at hmax
    have := star_none_elim reEq _ hmax k2 rest3 rfl hk2
    rw [this] at q3
    simp at q3

/-- The name group is greedy: after any longer newline-free prefix the rest of the
pattern, `\[(.*)=(.*)\]`, does not match. -/
theorem keyReAt_max (s n k v : Str) (h : keyReAt s = some (n, k, v)) :
    ∀ (g rest : Str), s = g ++ rest → '\n' ∉ g → n.length < g.length → reOpen rest = none := by
  unfold keyReAt at h
  cases h1 : star reOpen s with
  | none => simp [h1] at h
  | some r =>
    obtain ⟨n0, k0, v0, u⟩ := r
    simp only [h1, Option.map_some', Option.some.injEq, Prod.mk.injEq] at h
    obtain ⟨rfl, _, _⟩ := h
    exact star_max reOpen s n0 (k0, v0, u) h1

/-- Where the leftmost match sits: after a skipped prefix, which is empty when the text
has no newline. -/
theorem FindStringSubmatch_sound :
    ∀ (p : Str) (m : Str × Str × Str), FindStringSubmatch p = some m →
      ∃ pre rest, p = pre ++ rest ∧ keyReAt rest = some m ∧ ('\n' ∉ p → pre = []) := by
  intro p
  induction p with
  | nil =>
    intro m h
    exact ⟨[], [], rfl, by simpa [FindStringSubmatch] using h, fun _ => rfl⟩
  | cons c cs ih =>
    intro m h
    cases hk : keyReAt (c :: cs) with
    | some m0 =>
      simp only [FindStringSubmatch, hk, Option.some.injEq] at h
      subst h
      exact ⟨[], c :: cs, rfl, hk, fun _ => rfl⟩
    | none =>
      simp only [FindStringSubmatch, hk] at h
      obtain ⟨pre, rest, e, hm, hpre⟩ := ih m h
      refine ⟨c :: pre, rest, by rw [e]; rfl, hm, ?_⟩
      intro hnl
      exfalso
      simp only [List.mem_cons, not_or] at hnl
      have hpre0 := hpre hnl.2
      subst hpre0
      simp only [List.nil_append] at e
      subst e
      unfold keyReAt at hm hk
      cases hs : star reOpen cs with
      | none => simp [hs] at hm
      | some gr =>
        obtain ⟨g0, r0⟩ := gr
        rw [star_cons_some reOpen c cs g0 r0 (fun e => hnl.1 e.symm) hs] at hk
        simp at hk

/-- A text in which the pattern is found holds a `[`, later a `=` and later a `]`. -/
theorem hasBracketShape_of_find (p : Str) (m : Str × Str × Str)
    (h : FindStringSubmatch p = some m) : hasBracketShape p := by
  obtain ⟨n, k, v⟩ := m
  obtain ⟨pre, rest, e, hm, _⟩ := FindStringSubmatch_sound p _ h
  obtain ⟨post, e2, _⟩ := keyReAt_sound rest n k v hm
  exact ⟨pre ++ n, k, v, post, by rw [e, e2]; simp⟩

/-! ## Facts about the loop of `parsePath` -/

theorem parseLoop_eq (ps : List Str) :
    ∀ acc : List PathElem, parseLoop acc ps = acc ++ elemsOf ps := by
  induction ps with
  | nil => intro acc; simp [parseLoop, elemsOf]
  | cons p ps ih =>
    intro acc
    by_cases hp : p = []
    · simp [parseLoop, elemsOf, elemOf, hp, ih]
    · cases hf : FindStringSubmatch p with
      | none => simp [parseLoop, elemsOf, elemOf, hp, hf, ih, MatchString]
      | some m => simp [parseLoop, elemsOf, elemOf, hp, hf, ih, MatchString]

theorem elemsOf_append (ps qs : List Str) : elemsOf (ps ++ qs) = elemsOf ps ++ elemsOf qs := by
  induction ps with
  | nil => rfl
  | cons p ps ih => simp [elemsOf, ih]

/-- The elements of a path whose parts are `pre`, then `p`, then `post`. -/
theorem parsePath_of_parts (s : Str) (pre post : List Str) (p : Str)
    (h : parts s = pre ++ p :: post) :
    (parsePath s).Elem = parseLoop [] pre ++ elemOf p ++ parseLoop [] post := by
  simp [parsePath, h, parseLoop_eq, elemsOf_append, elemsOf]

theorem mem_elemsOf (ps : List Str) (e : PathElem) (h : e ∈ elemsOf ps) :
    ∃ p ∈ ps, e ∈ elemOf p := by
  induction ps with
  | nil => simp [elemsOf] at h
  | cons p ps ih =>
    simp only [elemsOf, List.mem_append] at h
    rcases h with h | h
    · exact ⟨p, by simp, h⟩
    · obtain ⟨q, hq, he⟩ := ih h
      exact ⟨q, by simp [hq], he⟩

theorem length_elemOf (p : Str) : (elemOf p).length = if p = [] then 0 else 1 := by
  by_cases hp : p = []
  · simp [elemOf, hp]
  · cases hf : FindStringSubmatch p <;> simp [elemOf, hp, hf]

theorem length_elemsOf (ps : List Str) :
    (elemsOf ps).length = (ps.filter (fun p => decide (p ≠ []))).length := by
  induction ps with
  | nil => rfl
  | cons p ps ih =>
    by_cases hp : p = []
    · simp [elemsOf, length_elemOf, hp, ih]
    · simp [elemsOf, length_elemOf, hp, ih, Nat.add_comm]

/-! ## Facts about `Split`, `Trim` and `pathToString` -/

theorem Split_of_no_slash (s : Str) (h : '/' ∉ s) : Split s = [s] := by
  induction s with
  | nil => rfl
  | cons c cs ih =>
    simp only [List.mem_cons, not_or] at h
    have hc : c ≠ '/' := fun e => h.1 e.symm
    simp [Split, hc, ih h.2]

theorem Split_append_slash (a rest : Str) (h : '/' ∉ a) :
    Split (a ++ '/' :: rest) = a :: Split rest := by
  induction a with
  | nil => simp [Split]
  | cons c a ih =>
    simp only [List.mem_cons, not_or] at h
    have hc : c ≠ '/' := fun e => h.1 e.symm
    simp [Split, hc, ih h.2]

theorem Split_render (es : List PathElem) :
    ∀ n : Str, '/' ∉ n → (∀ e ∈ es, '/' ∉ e.Name) →
      Split (n ++ renderElems es) = n :: es.map (fun e => e.Name) := by
  induction es with
  | nil =>
    intro n hn _
    simpa [renderElems] using Split_of_no_slash n hn
  | cons e es ih =>
    intro n hn hes
    have he : '/' ∉ e.Name := hes e (by simp)
    have hrest : ∀ x ∈ es, '/' ∉ x.Name := fun x hx => hes x (by simp [hx])
    simp only [renderElems, List.map_cons]
    rw [Split_append_slash n _ hn, ih e.Name he hrest]

theorem foldl_render (es : List PathElem) :
    ∀ acc : Str, es.foldl (fun s e => s ++ '/' :: e.Name) acc = acc ++ renderElems es := by
  induction es with
  | nil => intro acc; simp [renderElems]
  | cons e es ih => intro acc; simp [renderElems, ih]

theorem pathToString_some (p : Path) : pathToString (some p) = renderElems p.Elem := by
  simp [pathToString, foldl_render]

theorem dropWhile_quotes_append (l x : Str) (h : ∀ c ∈ l, isQuote c = true) :
    (l ++ x).dropWhile isQuote = x.dropWhile isQuote := by
  induction l with
  | nil => rfl
  | cons c l ih =>
    have hc : isQuote c = true := h c (by simp)
    have hl : ∀ d ∈ l, isQuote d = true := fun d hd => h d (by simp [hd])
    simp [List.dropWhile, hc, ih hl]

theorem dropWhile_quotes_all (l : Str) (h : ∀ c ∈ l, isQuote c = true) :
    l.dropWhile isQuote = [] := by
  simpa using dropWhile_quotes_append l [] h

/-- `Trim` removes whole runs of quote characters on both sides of an unquoted text. -/
theorem Trim_quoted (l m r : Str) (hl : ∀ c ∈ l, isQuote c = true)
    (hr : ∀ c ∈ r, isQuote c = true) (hm : unquoted m = true) :
    Trim (l ++ m ++ r) = m := by
  unfold Trim
  rw [List.append_assoc, dropWhile_quotes_append l _ hl]
  cases m with
  | nil => simp [dropWhile_quotes_all r hr]
  | cons a m =>
    simp only [unquoted, List.head?_cons, Bool.and_eq_true, Bool.not_eq_true'] at hm
    have h1 : ((a :: m) ++ r).dropWhile isQuote = (a :: m) ++ r := by
      simp [List.dropWhile, hm.1]
    rw [h1, List.reverse_append,
      dropWhile_quotes_append r.reverse _ (fun c hc => hr c (by simpa using hc))]
    have hlast : (a :: m).getLast? = some ((a :: m).getLast (by simp)) :=
      List.getLast?_eq_getLast _ _
    rw [hlast] at hm
    have h2 : (a :: m).reverse.dropWhile isQuote = (a :: m).reverse := by
      have e : (a :: m).reverse
          = (a :: m).getLast (by simp) :: (a :: m).dropLast.reverse := by
        conv_lhs => rw [← List.dropLast_append_getLast (l := a :: m) (by simp)]
        simp
      have hq : isQuote ((a :: m).getLast (by simp)) = false := by simpa using hm.2
      rw [e]
      simp [List.dropWhile, hq]
    rw [h2, List.reverse_reverse]

theorem Trim_plain (q v : Str) (hq : q = [] ∨ q = ['\''] ∨ q = ['"'])
    (hv : plainText v = true) : Trim (q ++ v ++ q) = v := by
  apply Trim_quoted
  · rcases hq with rfl | rfl | rfl <;> simp [isQuote]
  · rcases hq with rfl | rfl | rfl <;> simp [isQuote]
  · cases v with
    | nil => rfl
    | cons a v =>
      have hall : ∀ c ∈ a :: v, plainChar c = true := by
        simpa [plainText, List.all_eq_true] using hv
      have ha := hall a (by simp)
      have hb := hall ((a :: v).getLast (by simp)) (List.getLast_mem _)
      simp only [plainChar, Bool.and_eq_true, Bool.not_eq_true'] at ha hb
      simp [unquoted, List.getLast?_eq_getLast, ha.1.2, hb.1.2]

theorem plainText_elim (t : Str) (h : plainText t = true) :
    '/' ∉ t ∧ '[' ∉ t ∧ ']' ∉ t ∧ '=' ∉ t ∧ '\n' ∉ t := by
  have hall : ∀ c ∈ t, plainChar c = true := by
    simpa [plainText, List.all_eq_true] using h
  refine ⟨?_, ?_, ?_, ?_, ?_⟩ <;> intro hm <;> exact absurd (hall _ hm) (by decide)

theorem mem_quotes_of_plain (q v : Str) (hq : q = [] ∨ q = ['\''] ∨ q = ['"'])
    (hv : plainText v = true) (c : Char) (hc : c = '\n' ∨ c = '=')
    : c ∉ q ++ v ++ q := by
  obtain ⟨_, _, _, h4, h5⟩ := plainText_elim v hv
  rcases hc with rfl | rfl <;> rcases hq with rfl | rfl | rfl <;> simp [h4, h5]

theorem head?_dropWhile_quote (t : Str) (c : Char)
    (h : (t.dropWhile isQuote).head? = some c) : isQuote c = false := by
  have := List.head?_dropWhile_not isQuote t
  rw [h] at this
  exact this

theorem unquoted_of (t : Str) (h1 : ∀ c, t.head? = some c → isQuote c = false)
    (h2 : ∀ c, t.getLast? = some c → isQuote c = false) : unquoted t = true := by
  unfold unquoted
  cases hh : t.head? with
  | none =>
    cases hl : t.getLast? with
    | none => rfl
    | some b => simp [h2 b hl]
  | some a =>
    cases hl : t.getLast? with
    | none => simp [h1 a hh]
    | some b => simp [h1 a hh, h2 b hl]

/-- `Trim` cuts a text into a run of quotes, the kept middle and a run of quotes; the
middle neither starts nor ends with a quote. -/
theorem Trim_decomp (v : Str) :
    ∃ l r : Str, v = l ++ Trim v ++ r ∧ (∀ c ∈ l, isQuote c = true) ∧
      (∀ c ∈ r, isQuote c = true) ∧ unquoted (Trim v) = true := by
  have e1 : v = v.takeWhile isQuote ++ v.dropWhile isQuote :=
    (List.takeWhile_append_dropWhile isQuote v).symm
  have e2 : v.dropWhile isQuote
      = Trim v ++ ((v.dropWhile isQuote).reverse.takeWhile isQuote).reverse := by
    have e := List.takeWhile_append_dropWhile isQuote (v.dropWhile isQuote).reverse
    have e3 := congrArg List.reverse e
    rw [List.reverse_append, List.reverse_reverse] at e3
    exact e3.symm
  refine ⟨v.takeWhile isQuote, ((v.dropWhile isQuote).reverse.takeWhile isQuote).reverse,
    ?_, ?_, ?_, ?_⟩
  · rw [List.append_assoc, ← e2]; exact e1
  · intro c hc
    exact List.mem_takeWhile_imp hc
  · intro c hc
    exact List.mem_takeWhile_imp (List.mem_reverse.mp hc)
  · apply unquoted_of
    · intro c hc
      have hne : Trim v ≠ [] := by
        intro h0
        rw [h0] at hc
        simp at hc
      have hh : (v.dropWhile isQuote).head? = some c := by
        rw [e2, List.head?_append_of_ne_nil _ hne]
        exact hc
      exact head?_dropWhile_quote v c hh
    · intro c hc
      have hh : ((v.dropWhile isQuote).reverse.dropWhile isQuote).head? = some c := by
        simpa [Trim] using hc
      exact head?_dropWhile_quote _ c hh

/-- Where the leftmost match sits: at the start of the text or right after a newline. -/
theorem FindStringSubmatch_line_start :
    ∀ (p : Str) (m : Str × Str × Str), FindStringSubmatch p = some m →
      ∃ pre rest, p = pre ++ rest ∧ keyReAt rest = some m ∧
        (pre = [] ∨ pre.getLast? = some '\n') := by
  intro p
  induction p with
  | nil =>
    intro m h
    exact ⟨[], [], rfl, by simpa [FindStringSubmatch] using h, Or.inl rfl⟩
  | cons c cs ih =>
    intro m h
    cases hk : keyReAt (c :: cs) with
    | some m0 =>
      simp only [FindStringSubmatch, hk, Option.some.injEq] at h
      subst h
      exact ⟨[], c :: cs, rfl, hk, Or.inl rfl⟩
    | none =>
      simp only [FindStringSubmatch, hk] at h
      obtain ⟨pre, rest, e, hm, hpre⟩ := ih m h
      refine ⟨c :: pre, rest, by rw [e]; rfl, hm, Or.inr ?_⟩
      rcases hpre with h0 | h1
      · subst h0
        simp only [List.nil_append] at e
        subst e
        by_cases hc : c = '\n'
        · simp [hc]
        · exfalso
          unfold keyReAt at hm hk
          cases hs : star reOpen cs with
          | none => simp [hs] at hm
          | some gr =>
            obtain ⟨g0, r0⟩ := gr
            rw [star_cons_some reOpen c cs g0 r0 hc hs] at hk
            simp at hk
      · cases pre with
        | nil => simp at h1
        | cons d pre => simpa using h1

/-- What the loop appends for a part of the shape `n[k=v]t`. -/
theorem elemOf_bracketed (n k v t : Str) (hn : '\n' ∉ n) (hk : '\n' ∉ k) (hv : '\n' ∉ v)
    (hk2 : '[' ∉ k) (hv2 : '=' ∉ v) (ht : ']' ∉ t) :
    elemOf (n ++ '[' :: (k ++ '=' :: (v ++ ']' :: t))) = [⟨n, [(k, Trim v)]⟩] := by
  have hne : n ++ '[' :: (k ++ '=' :: (v ++ ']' :: t)) ≠ [] := by simp
  simp [elemOf, hne, FindStringSubmatch_decomp n k v t hn hk hv hk2 hv2 ht]

theorem elemOf_plain (p : Str) (hp : p ≠ []) (h : ¬ hasBracketShape p) :
    elemOf p = [⟨p, []⟩] := by
  cases hf : FindStringSubmatch p with
  | none => simp [elemOf, hp, hf]
  | some m => exact absurd (hasBracketShape_of_find p m hf) h

theorem mem_close_of_hasBracketShape (p : Str) (h : hasBracketShape p) : ']' ∈ p := by
  obtain ⟨a, b, c, d, rfl⟩ := h
  simp

theorem parsePath_elem (s : Str) : (parsePath s).Elem = elemsOf (parts s) := by
  simp [parsePath, parseLoop_eq]

/-! ## The claims -/

/-- Claim C1: a segment `n[k=v]`, `n[k='v']` or `n[k="v"]` whose name, key and value are
made of plain characters (none of `/`, `[`, `]`, `=`, a quote, a newline), with a non-empty
name, contributes exactly the element named `n` with the single predicate `k ↦ v`. -/
theorem parsePath_bracketed_segment (s : Str) (pre post : List Str) (n k v q : Str)
    (_hne : n ≠ []) (hn : plainText n = true) (hk : plainText k = true)
    (hv : plainText v = true) (hq : q = [] ∨ q = ['\''] ∨ q = ['"'])
    (h : parts s = pre ++ (n ++ '[' :: (k ++ '=' :: ((q ++ v ++ q) ++ [']']))) :: post) :
    (parsePath s).Elem = parseLoop [] pre ++ ⟨n, [(k, v)]⟩ :: parseLoop [] post := by
  obtain ⟨_, _, _, _, hn5⟩ := plainText_elim n hn
  obtain ⟨_, hk2, _, _, hk5⟩ := plainText_elim k hk
  have hvn := mem_quotes_of_plain q v hq hv '\n' (Or.inl rfl)
  have hve := mem_quotes_of_plain q v hq hv '=' (Or.inr rfl)
  rw [parsePath_of_parts s pre post _ h,
    elemOf_bracketed n k (q ++ v ++ q) [] hn5 hk5 hvn hk2 hve (by simp),
    Trim_plain q v hq hv]
  simp

/-- The examples of claim C1, `/component[name=fan1]/status` and
`/component[name='fan 1']/status`, obtained from the general statement. -/
theorem parsePath_bracketed_segment_witness :
    (parsePath "/component[name=fan1]/status".toList).Elem
        = [⟨"component".toList, [("name".toList, "fan1".toList)]⟩, ⟨"status".toList, []⟩]
    ∧ (parsePath "/component[name='fan 1']/status".toList).Elem
        = [⟨"component".toList, [("name".toList, "fan 1".toList)]⟩, ⟨"status".toList, []⟩] :=
  ⟨parsePath_bracketed_segment "/component[name=fan1]/status".toList [] ["status".toList]
      "component".toList "name".toList "fan1".toList [] (by decide) (by decide) (by decide)
      (by decide) (by decide) (by decide),
   parsePath_bracketed_segment "/component[name='fan 1']/status".toList [] ["status".toList]
      "component".toList "name".toList "fan 1".toList ['\''] (by decide) (by decide)
      (by decide) (by decide) (by decide) (by decide)⟩

/-- Claim C2, as the code has it: in a segment `n[c]` the key is the text of `c` before
its LAST `=` (the value, the text after it, holds no `=`), so earlier `=` signs stay in
the key. -/
theorem parsePath_key_before_last_eq (s : Str) (pre post : List Str) (n k v : Str)
    (hn : '\n' ∉ n) (hk : '\n' ∉ k) (hv : '\n' ∉ v) (hk2 : '[' ∉ k) (hv2 : '=' ∉ v)
    (h : parts s = pre ++ (n ++ '[' :: (k ++ '=' :: (v ++ [']']))) :: post) :
    (parsePath s).Elem = parseLoop [] pre ++ ⟨n, [(k, Trim v)]⟩ :: parseLoop [] post := by
  rw [parsePath_of_parts s pre post _ h, elemOf_bracketed n k v [] hn hk hv hk2 hv2 (by simp)]
  simp

/-- The general statement of C2 at `/a[x=1=2]`: key `x=1`, value `2`. -/
theorem parsePath_key_before_last_eq_witness :
    parts "/a[x=1=2]".toList = [] ++ ("a".toList ++ '[' :: ("x=1".toList ++ '=' ::
        ("2".toList ++ [']']))) :: []
    ∧ (parsePath "/a[x=1=2]".toList).Elem
        = parseLoop [] [] ++ ⟨"a".toList, [("x=1".toList, Trim "2".toList)]⟩ :: parseLoop [] [] :=
  ⟨by decide,
   parsePath_key_before_last_eq "/a[x=1=2]".toList [] [] "a".toList "x=1".toList "2".toList
      (by decide) (by decide) (by decide) (by decide) (by decide) (by decide)⟩

/-- Claim C2 fails as stated: `/a[x=1=2]` gives the predicate `x=1 ↦ 2`, not `x ↦ 1=2`. -/
theorem parsePath_first_eq_counterexample :
    parsePath "/a[x=1=2]".toList = ⟨[⟨"a".toList, [("x=1".toList, "2".toList)]⟩]⟩
    ∧ parsePath "/a[x=1=2]".toList ≠ ⟨[⟨"a".toList, [("x".toList, "1=2".toList)]⟩]⟩ := by
  decide

/-- Claim C3, as the code has it.  First: in a segment `n[k=v]` with `n`, `k`, `v`
newline-free, no `[` in `k` and no `=` in `v`, where `v` is a run `l` of quote characters,
a text `m` that neither starts nor ends with a quote, and a run `r` of quote characters,
the stored value is `m`: ALL leading and ALL trailing quotes go, of either kind and whether
or not they pair up, and the inside is kept as it is.  Second, with no condition on the
input: every element with a predicate comes from a segment `pre n [ k = v ] post` whose
element stores, under `k`, the text `v` without a leading run and a trailing run of quote
characters, and the stored value neither starts nor ends with a quote. -/
theorem parsePath_value_trims_all_quotes :
    (∀ (s : Str) (pre post : List Str) (n k l m r : Str),
      '\n' ∉ n → '\n' ∉ k → '[' ∉ k →
      (∀ c ∈ l, isQuote c = true) → (∀ c ∈ r, isQuote c = true) →
      unquoted m = true → '\n' ∉ m → '=' ∉ m →
      parts s = pre ++ (n ++ '[' :: (k ++ '=' :: ((l ++ m ++ r) ++ [']']))) :: post →
      (parsePath s).Elem = parseLoop [] pre ++ ⟨n, [(k, m)]⟩ :: parseLoop [] post)
    ∧ (∀ (s : Str) (e : PathElem), e ∈ (parsePath s).Elem → e.Key ≠ [] →
      ∃ p ∈ parts s, ∃ pre k l m r post : Str,
        p = pre ++ (e.Name ++ '[' :: (k ++ '=' :: ((l ++ m ++ r) ++ ']' :: post)))
        ∧ (∀ c ∈ l, isQuote c = true) ∧ (∀ c ∈ r, isQuote c = true)
        ∧ unquoted m = true ∧ e.Key = [(k, m)]) := by
  constructor
  · intro s pre post n k l m r hn hk hk2 hl hr hm hm1 hm2 h
    have hq : ∀ (x : Str), (∀ c ∈ x, isQuote c = true) → '\n' ∉ x ∧ '=' ∉ x := by
      intro x hx
      exact ⟨fun hc => absurd (hx _ hc) (by decide), fun hc => absurd (hx _ hc) (by decide)⟩
    have hvn : '\n' ∉ l ++ m ++ r := by simp [hm1, (hq l hl).1, (hq r hr).1]
    have hve : '=' ∉ l ++ m ++ r := by simp [hm2, (hq l hl).2, (hq r hr).2]
    rw [parsePath_of_parts s pre post _ h,
      elemOf_bracketed n k (l ++ m ++ r) [] hn hk hvn hk2 hve (by simp),
      Trim_quoted l m r hl hr hm]
    simp
  · intro s e he hkey
    rw [parsePath_elem] at he
    obtain ⟨p, hp, hmem⟩ := mem_elemsOf _ e he
    refine ⟨p, hp, ?_⟩
    by_cases hnil : p = []
    · simp [elemOf, hnil] at hmem
    · cases hf : FindStringSubmatch p with
      | none =>
        simp only [elemOf, hnil, hf, if_false, List.mem_singleton] at hmem
        subst hmem
        exact absurd rfl hkey
      | some g =>
        obtain ⟨n, k, v⟩ := g
        simp only [elemOf, hnil, hf, if_false, List.mem_singleton] at hmem
        subst hmem
        obtain ⟨pre, rest, e1, hm, _⟩ := FindStringSubmatch_sound p _ hf
        obtain ⟨post, e2, _⟩ := keyReAt_sound rest n k v hm
        obtain ⟨l, r, ev, hl, hr, hu⟩ := Trim_decomp v
        exact ⟨pre, k, l, Trim v, r, post, by rw [e1, e2, ← ev], hl, hr, hu, rfl⟩

/-- Both parts of the statement of C3 at `/a[k=''x'y"]`: two leading quotes and one
trailing quote of the other kind go, the inner quote stays; and at `/a[k='x=y']`, where
the pattern takes `k='x` as the key, the stored value `y` has no quote at either end. -/
theorem parsePath_value_trims_all_quotes_witness :
    (parts "/a[k=''x'y\"]".toList = [] ++ ("a".toList ++ '[' :: ("k".toList ++ '=' ::
        (("''".toList ++ "x'y".toList ++ "\"".toList) ++ [']']))) :: []
      ∧ (parsePath "/a[k=''x'y\"]".toList).Elem
        = parseLoop [] [] ++ ⟨"a".toList, [("k".toList, "x'y".toList)]⟩ :: parseLoop [] [])
    ∧ ((⟨"a".toList, [("k='x".toList, "y".toList)]⟩ : PathElem)
        ∈ (parsePath "/a[k='x=y']".toList).Elem
      ∧ ∃ p ∈ parts "/a[k='x=y']".toList, ∃ pre k l m r post : Str,
        p = pre ++ ("a".toList ++ '[' :: (k ++ '=' :: ((l ++ m ++ r) ++ ']' :: post)))
        ∧ (∀ c ∈ l, isQuote c = true) ∧ (∀ c ∈ r, isQuote c = true)
        ∧ unquoted m = true ∧ [("k='x".toList, "y".toList)] = [(k, m)]) :=
  ⟨⟨by decide,
    parsePath_value_trims_all_quotes.1 "/a[k=''x'y\"]".toList [] [] "a".toList "k".toList
      "''".toList "x'y".toList "\"".toList (by decide) (by decide) (by decide) (by decide)
      (by decide) (by decide) (by decide) (by decide) (by decide)⟩,
   ⟨by decide,
    parsePath_value_trims_all_quotes.2 "/a[k='x=y']".toList
      ⟨"a".toList, [("k='x".toList, "y".toList)]⟩ (by decide) (by decide)⟩⟩

/-- Claim C3 fails as stated: two layers of quotes are both removed, and a quote on one
side only, or a single quote against a double quote, is removed as well. -/
theorem Trim_unpaired_counterexample :
    parsePath "/a[k=''x'']".toList = ⟨[⟨"a".toList, [("k".toList, "x".toList)]⟩]⟩
    ∧ parsePath "/a[k='x]".toList = ⟨[⟨"a".toList, [("k".toList, "x".toList)]⟩]⟩
    ∧ parsePath "/a[k='x\"]".toList = ⟨[⟨"a".toList, [("k".toList, "x".toList)]⟩]⟩ := by
  decide

/-- Claim C4: a non-empty segment that does not hold a `[`, later a `=` and later a `]`
contributes exactly one element, named by the whole raw segment, with no predicate. -/
theorem parsePath_plain_segment (s : Str) (pre post : List Str) (p : Str)
    (hp : p ≠ []) (hshape : ¬ hasBracketShape p) (h : parts s = pre ++ p :: post) :
    (parsePath s).Elem = parseLoop [] pre ++ ⟨p, []⟩ :: parseLoop [] post := by
  rw [parsePath_of_parts s pre post p h, elemOf_plain p hp hshape]
  simp

/-- The example of claim C4, `/a[malformed`, obtained from the general statement. -/
theorem parsePath_plain_segment_witness :
    parsePath "/a[malformed".toList = ⟨[⟨"a[malformed".toList, []⟩]⟩ :=
  congrArg Path.mk
    (parsePath_plain_segment "/a[malformed".toList [] [] "a[malformed".toList (by decide)
      (fun hs => absurd (mem_close_of_hasBracketShape _ hs) (by decide)) (by decide))

/-- Claim C5: the number of elements of `parsePath s` is the number of non-empty parts
of `s` (one leading `/` removed, the rest split on `/`); the empty string and `/` give no
element, and a string with a non-empty part gives at least one. -/
theorem parsePath_length :
    (∀ s : Str, (parsePath s).Elem.length
        = ((parts s).filter (fun p => decide (p ≠ []))).length)
    ∧ (parsePath "".toList).Elem.length = 0
    ∧ (parsePath "/".toList).Elem.length = 0
    ∧ (∀ s : Str, (∃ p ∈ parts s, p ≠ []) → 1 ≤ (parsePath s).Elem.length) := by
  have hlen : ∀ s : Str, (parsePath s).Elem.length
      = ((parts s).filter (fun p => decide (p ≠ []))).length := by
    intro s
    rw [parsePath_elem, length_elemsOf]
  refine ⟨hlen, by decide, by decide, ?_⟩
  rintro s ⟨p, hp, hne⟩
  rw [hlen s]
  exact List.length_pos_of_mem (List.mem_filter.mpr ⟨hp, by simpa using hne⟩)

/-- The statement of C5 at `/a//b/`: four parts, two of them non-empty, two elements. -/
theorem parsePath_length_witness :
    parts "/a//b/".toList = ["a".toList, [], "b".toList, []]
    ∧ (parsePath "/a//b/".toList).Elem.length = 2
    ∧ 1 ≤ (parsePath "/a//b/".toList).Elem.length :=
  ⟨by decide,
   (parsePath_length.1 "/a//b/".toList).trans (by decide),
   parsePath_length.2.2.2 "/a//b/".toList ⟨"a".toList, by decide, by decide⟩⟩

/-- Claim C6, as the code has it: rendering and re-parsing returns the path when every
element has no predicate and a non-empty name without `/` that the pattern
`(.*)\[(.*)=(.*)\]` does not match. -/
theorem parsePath_pathToString_roundtrip (p : Path)
    (h : ∀ e ∈ p.Elem, e.Key = [] ∧ e.Name ≠ [] ∧ '/' ∉ e.Name ∧ MatchString e.Name = false) :
    parsePath (pathToString (some p)) = p := by
  obtain ⟨es⟩ := p
  have hel : ∀ l : List PathElem,
      (∀ e ∈ l, e.Key = [] ∧ e.Name ≠ [] ∧ '/' ∉ e.Name ∧ MatchString e.Name = false) →
      elemsOf (l.map (fun e => e.Name)) = l := by
    intro l
    induction l with
    | nil => intro _; rfl
    | cons e l ih =>
      intro hl
      obtain ⟨h1, h2, _, h4⟩ := hl e (by simp)
      have hf : FindStringSubmatch e.Name = none := by
        simpa [MatchString] using h4
      have he : elemOf e.Name = [e] := by
        obtain ⟨nm, ky⟩ := e
        simp only at h1 h2 hf
        subst h1
        simp [elemOf, h2, hf]
      simp only [List.map_cons, elemsOf, he]
      rw [ih (fun x hx => hl x (by simp [hx]))]
      rfl
  have hparts : elemsOf (parts (renderElems es)) = es := by
    cases es with
    | nil => rfl
    | cons e es =>
      have hs : ∀ x ∈ es, '/' ∉ x.Name := fun x hx => (h x (by simp [hx])).2.2.1
      have hsplit := Split_render es e.Name (h e (by simp)).2.2.1 hs
      have hp : parts (renderElems (e :: es)) = e.Name :: es.map (fun x => x.Name) := by
        simpa [parts, renderElems, TrimPrefix] using hsplit
      rw [hp]
      exact hel (e :: es) h
  rw [pathToString_some]
  show (⟨parseLoop [] (parts (renderElems es))⟩ : Path) = ⟨es⟩
  rw [parseLoop_eq, hparts]
  rfl

/-- The example of claim C6: the path with names `a`, `b`, `c` renders as `/a/b/c` and
parses back to itself. -/
theorem parsePath_pathToString_roundtrip_witness :
    pathToString (some ⟨[⟨"a".toList, []⟩, ⟨"b".toList, []⟩, ⟨"c".toList, []⟩]⟩)
        = "/a/b/c".toList
    ∧ parsePath (pathToString (some ⟨[⟨"a".toList, []⟩, ⟨"b".toList, []⟩, ⟨"c".toList, []⟩]⟩))
        = ⟨[⟨"a".toList, []⟩, ⟨"b".toList, []⟩, ⟨"c".toList, []⟩]⟩ :=
  ⟨by decide,
   parsePath_pathToString_roundtrip
      ⟨[⟨"a".toList, []⟩, ⟨"b".toList, []⟩, ⟨"c".toList, []⟩]⟩ (by decide)⟩

/-- Claim C6 fails as stated: the one-element path named `a[k=v]`, without predicate,
has a non-empty name with no `/`, yet it renders as `/a[k=v]`, which parses to the name
`a` with the predicate `k ↦ v`. -/
theorem roundtrip_bracketed_name_counterexample :
    ¬ (∀ p : Path, (∀ e ∈ p.Elem, e.Key = [] ∧ e.Name ≠ [] ∧ '/' ∉ e.Name) →
        parsePath (pathToString (some p)) = p) := by
  intro hall
  have h := hall ⟨[⟨"a[k=v]".toList, []⟩]⟩ (by decide)
  revert h
  decide

/-- Claim C7, as the code has it: the name of an element with a predicate is the text of
its segment that ends right before the LAST `[` after which `[key=value]` can be matched
on the same line: the key holds no `[`, and after any longer newline-free text the pattern
`\[(.*)=(.*)\]` does not match.  The name starts at the start of the segment when the
segment has no newline.  So the name may hold a `[`. -/
theorem parsePath_name_before_last_open (s : Str) (e : PathElem)
    (he : e ∈ (parsePath s).Elem) (hkey : e.Key ≠ []) :
    ∃ p ∈ parts s, ∃ pre k v post : Str,
      p = pre ++ (e.Name ++ '[' :: (k ++ '=' :: (v ++ ']' :: post)))
      ∧ '[' ∉ k ∧ ('\n' ∉ p → pre = []) ∧ e.Key = [(k, Trim v)]
      ∧ ∀ (g rest : Str), e.Name ++ '[' :: (k ++ '=' :: (v ++ ']' :: post)) = g ++ rest →
          '\n' ∉ g → e.Name.length < g.length → reOpen rest = none := by
  rw [parsePath_elem] at he
  obtain ⟨p, hp, hmem⟩ := mem_elemsOf _ e he
  refine ⟨p, hp, ?_⟩
  by_cases hnil : p = []
  · simp [elemOf, hnil] at hmem
  · cases hf : FindStringSubmatch p with
    | none =>
      simp only [elemOf, hnil, hf, if_false, List.mem_singleton] at hmem
      subst hmem
      exact absurd rfl hkey
    | some m =>
      obtain ⟨n, k, v⟩ := m
      simp only [elemOf, hnil, hf, if_false, List.mem_singleton] at hmem
      subst hmem
      obtain ⟨pre, rest, e1, hm, hpre⟩ := FindStringSubmatch_sound p _ hf
      obtain ⟨post, e2, _, _, _, hk⟩ := keyReAt_sound rest n k v hm
      exact ⟨pre, k, v, post, by rw [e1, e2], hk, hpre, rfl, e2 ▸ keyReAt_max rest n k v hm⟩

/-- The statement of C7 at `/a[b][k=v]`, for the element named `a[b]`. -/
theorem parsePath_name_before_last_open_witness :
    (⟨"a[b]".toList, [("k".toList, "v".toList)]⟩ : PathElem)
        ∈ (parsePath "/a[b][k=v]".toList).Elem
    ∧ ∃ p ∈ parts "/a[b][k=v]".toList, ∃ pre k v post : Str,
      p = pre ++ ("a[b]".toList ++ '[' :: (k ++ '=' :: (v ++ ']' :: post)))
      ∧ '[' ∉ k ∧ ('\n' ∉ p → pre = [])
      ∧ [("k".toList, "v".toList)] = [(k, Trim v)]
      ∧ ∀ (g rest : Str), "a[b]".toList ++ '[' :: (k ++ '=' :: (v ++ ']' :: post)) = g ++ rest →
          '\n' ∉ g → "a[b]".toList.length < g.length → reOpen rest = none :=
  ⟨by decide,
   parsePath_name_before_last_open "/a[b][k=v]".toList
      ⟨"a[b]".toList, [("k".toList, "v".toList)]⟩ (by decide) (by decide)⟩

/-- Claim C7 fails as stated: the segment `a[b][k=v]` gives the name `a[b]`, which
holds a `[`, not the name `a`. -/
theorem name_holds_bracket_counterexample :
    (parsePath "/a[b][k=v]".toList).Elem
        = [⟨"a[b]".toList, [("k".toList, "v".toList)]⟩]
    ∧ '[' ∈ "a[b]".toList
    ∧ (parsePath "/a[b][k=v]".toList).Elem ≠ [⟨"a".toList, [("k".toList, "v".toList)]⟩] := by
  decide

/-- Claim C8, as the code has it: a segment `n[k=v]t` with text `t` after the closing
bracket still gets the predicate: its element is named `n`, carries `k ↦ v` (quotes
trimmed), and the trailing text `t` appears nowhere in it. -/
theorem parsePath_drops_trailing_text (s : Str) (pre post : List Str) (n k v t : Str)
    (hn : '\n' ∉ n) (hk : '\n' ∉ k) (hv : '\n' ∉ v) (hk2 : '[' ∉ k) (hv2 : '=' ∉ v)
    (ht : ']' ∉ t)
    (h : parts s = pre ++ (n ++ '[' :: (k ++ '=' :: (v ++ ']' :: t))) :: post) :
    (parsePath s).Elem = parseLoop [] pre ++ ⟨n, [(k, Trim v)]⟩ :: parseLoop [] post := by
  rw [parsePath_of_parts s pre post _ h, elemOf_bracketed n k v t hn hk hv hk2 hv2 ht]
  simp

/-- The statement of C8 at `/x/a[k=v]junk`. -/
theorem parsePath_drops_trailing_text_witness :
    parts "/x/a[k=v]junk".toList = ["x".toList] ++ ("a".toList ++ '[' :: ("k".toList ++ '=' ::
        ("v".toList ++ ']' :: "junk".toList))) :: []
    ∧ (parsePath "/x/a[k=v]junk".toList).Elem
        = parseLoop [] ["x".toList]
          ++ ⟨"a".toList, [("k".toList, Trim "v".toList)]⟩ :: parseLoop [] [] :=
  ⟨by decide,
   parsePath_drops_trailing_text "/x/a[k=v]junk".toList ["x".toList] [] "a".toList
      "k".toList "v".toList "junk".toList (by decide) (by decide) (by decide) (by decide)
      (by decide) (by decide) (by decide)⟩

/-- Claim C8 fails as stated: `a[k=v]junk` does not become a plain name; it gives the
name `a` with `k ↦ v`, and `junk` is dropped. -/
theorem trailing_text_counterexample :
    parsePath "/a[k=v]junk".toList = ⟨[⟨"a".toList, [("k".toList, "v".toList)]⟩]⟩
    ∧ parsePath "/a[k=v]junk".toList ≠ ⟨[⟨"a[k=v]junk".toList, []⟩]⟩ := by
  decide

/-- Claim C9, as the code has it.  An element of `parsePath s` has the empty name only
when it carries a predicate `k ↦ trim v` taken from a segment `a[k=v]post` in which the
text `a` before the bracket is empty or ends with a newline, so that the matched text
begins with `[`; an element without a predicate therefore has a non-empty name.  Every
non-empty segment without a newline that does not start with `[` gives an element with a
non-empty name.  A segment `[k=v]t` (key and value newline-free, no `[` in the key, no `=`
in the value, no `]` in `t`) gives the empty name. -/
theorem parsePath_name_nonempty_unless_open_start :
    (∀ (s : Str) (e : PathElem), e ∈ (parsePath s).Elem → e.Name = [] →
      ∃ p ∈ parts s, ∃ a k v post : Str,
        p = a ++ '[' :: (k ++ '=' :: (v ++ ']' :: post))
        ∧ (a = [] ∨ a.getLast? = some '\n') ∧ e.Key = [(k, Trim v)])
    ∧ (∀ (s : Str) (pre post : List Str) (p : Str), parts s = pre ++ p :: post →
      p ≠ [] → '\n' ∉ p → p.head? ≠ some '[' →
      ∃ e : PathElem, e.Name ≠ [] ∧
        (parsePath s).Elem = parseLoop [] pre ++ e :: parseLoop [] post)
    ∧ (∀ (s : Str) (pre post : List Str) (k v t : Str),
      '\n' ∉ k → '\n' ∉ v → '[' ∉ k → '=' ∉ v → ']' ∉ t →
      parts s = pre ++ ('[' :: (k ++ '=' :: (v ++ ']' :: t))) :: post →
      (parsePath s).Elem
        = parseLoop [] pre ++ ⟨[], [(k, Trim v)]⟩ :: parseLoop [] post) := by
  refine ⟨?_, ?_, ?_⟩
  · intro s e he hname
    rw [parsePath_elem] at he
    obtain ⟨p, hp, hmem⟩ := mem_elemsOf _ e he
    by_cases hnil : p = []
    · simp [elemOf, hnil] at hmem
    · cases hf : FindStringSubmatch p with
      | none =>
        simp only [elemOf, hnil, hf, if_false, List.mem_singleton] at hmem
        subst hmem
        exact absurd hname hnil
      | some g =>
        obtain ⟨n, k, v⟩ := g
        simp only [elemOf, hnil, hf, if_false, List.mem_singleton] at hmem
        subst hmem
        simp only at hname
        subst hname
        obtain ⟨a, rest, e1, hm, ha⟩ := FindStringSubmatch_line_start p _ hf
        obtain ⟨post, e2, _⟩ := keyReAt_sound rest [] k v hm
        exact ⟨p, hp, a, k, v, post, by rw [e1, e2]; rfl, ha, rfl⟩
  · intro s pre post p h hp hnl hhead
    rw [parsePath_of_parts s pre post p h]
    cases hf : FindStringSubmatch p with
    | none =>
      exact ⟨⟨p, []⟩, hp, by simp [elemOf, hp, hf]⟩
    | some g =>
      obtain ⟨n, k, v⟩ := g
      refine ⟨⟨n, [(k, Trim v)]⟩, ?_, by simp [elemOf, hp, hf]⟩
      intro hn
      simp only at hn
      subst hn
      obtain ⟨a, rest, e1, hm, ha⟩ := FindStringSubmatch_sound p _ hf
      obtain ⟨post2, e2, _⟩ := keyReAt_sound rest [] k v hm
      have ha0 := ha hnl
      subst ha0
      apply hhead
      rw [e1, e2]
      rfl
  · intro s pre post k v t hk hv hk2 hv2 ht h
    have hb := elemOf_bracketed [] k v t (by simp) hk hv hk2 hv2 ht
    simp only [List.nil_append] at hb
    rw [parsePath_of_parts s pre post _ h, hb]
    simp

/-- The three parts of the statement of C9: the empty-named element of `/[k=v]` comes
from a segment starting with `[`; the segment `a[b][k=v]` of `/x/a[b][k=v]`, which starts
with `a`, gives a non-empty name; the segment `[k=v]junk` gives the empty name. -/
theorem parsePath_name_nonempty_unless_open_start_witness :
    ((⟨[], [("k".toList, "v".toList)]⟩ : PathElem) ∈ (parsePath "/[k=v]".toList).Elem
      ∧ ∃ p ∈ parts "/[k=v]".toList, ∃ a k v post : Str,
        p = a ++ '[' :: (k ++ '=' :: (v ++ ']' :: post))
        ∧ (a = [] ∨ a.getLast? = some '\n')
        ∧ [("k".toList, "v".toList)] = [(k, Trim v)])
    ∧ (parts "/x/a[b][k=v]".toList = ["x".toList] ++ "a[b][k=v]".toList :: []
      ∧ ∃ e : PathElem, e.Name ≠ [] ∧
        (parsePath "/x/a[b][k=v]".toList).Elem
          = parseLoop [] ["x".toList] ++ e :: parseLoop [] [])
    ∧ (parts "/[k=v]junk".toList
        = [] ++ ('[' :: ("k".toList ++ '=' :: ("v".toList ++ ']' :: "junk".toList))) :: []
      ∧ (parsePath "/[k=v]junk".toList).Elem
        = parseLoop [] [] ++ ⟨[], [("k".toList, Trim "v".toList)]⟩ :: parseLoop [] []) :=
  ⟨⟨by decide,
    parsePath_name_nonempty_unless_open_start.1 "/[k=v]".toList
      ⟨[], [("k".toList, "v".toList)]⟩ (by decide) rfl⟩,
   ⟨by decide,
    parsePath_name_nonempty_unless_open_start.2.1 "/x/a[b][k=v]".toList ["x".toList] []
      "a[b][k=v]".toList (by decide) (by decide) (by decide) (by decide)⟩,
   ⟨by decide,
    parsePath_name_nonempty_unless_open_start.2.2 "/[k=v]junk".toList [] [] "k".toList
      "v".toList "junk".toList (by decide) (by decide) (by decide) (by decide) (by decide)
      (by decide)⟩⟩

/-- Claim C9 fails as stated: the segment `[k=v]` gives an element with the empty name. -/
theorem empty_name_counterexample :
    ¬ (∀ (s : Str) (e : PathElem), e ∈ (parsePath s).Elem → e.Name ≠ []) := by
  intro hall
  exact hall "/[k=v]".toList ⟨[], [("k".toList, "v".toList)]⟩ (by decide) rfl

/-- Claim C10, what the code does: `Get` sends the request with the parsed path, and when
the remote call fails (`resp` nil, `err` set) it does not stop with a fatal error: it goes
on to read `resp.Component` through the nil pointer.  `Check` stops with its message at
the same failure. -/
theorem Get_remote_error_reads_response :
    Get (.ok "/component[name=fan1]".toList) (fun _ => (none, some "unavailable".toList))
      = ⟨some ⟨[⟨"component".toList, [("name".toList, "fan1".toList)]⟩]⟩, true,
          .nilDereference⟩
    ∧ (∀ (path e : Str) (r : Option GetResponse),
        (Get (.ok path) (fun _ => (r, some e))).request = some (parsePath path)
        ∧ (Get (.ok path) (fun _ => (r, some e))).readsResp = true
        ∧ ∀ msg, (Get (.ok path) (fun _ => (r, some e))).outcome ≠ .panicked msg)
    ∧ (∀ (path ev e : Str) (r : Option CheckResponse),
        Check (.ok (path, ev)) (fun _ _ => (r, some e))
          = ⟨some (parsePath path), false,
              .panicked ("Healthz.Check RPC failed: ".toList ++ e)⟩) := by
  refine ⟨by decide, ?_, ?_⟩
  · intro path e r
    cases r with
    | none => simp [Get]
    | some r =>
      cases hc : r.Component with
      | none => simp [Get, printComponentStatus, hc]
      | some cs => simp [Get, printComponentStatus, hc]
  · intro path ev e r
    simp [Check]

end Healthz
